import Mathlib

/-!
Shallow embedding of the cc2p command-line harness (src/main.rs).

The harness parses a delimiter argument, discovers input files, spawns one
conversion task per file on a worker pool, and aggregates per-file failures
in a mutex-protected error list while advancing a mutex-protected progress
bar.  The conversion engine itself (convert_to_parquet) and file discovery
(find_files) live in the cc2p library crate and are treated as opaque
parameters of the model.

Paths are modelled as lists of OS-string components; each component is a
list of units, where a unit is either a valid Unicode character or an
invalid (non-UTF-8) byte sequence.  This makes the partiality of the
to_str and file_name unwraps in main.rs expressible.

Concurrency is modelled by an explicit scheduler: each spawned task
contributes a queue of atomic operations on the shared state (one
mutex-protected mutation per operation, mirroring the lock acquisitions in
the task body at main.rs lines 130-139), and a schedule is a list of task
indices interleaving those queues.
-/

/-- A unit of an OS string: some c is a valid Unicode scalar, none stands
for a byte sequence that is not valid UTF-8. -/
abbrev OsChar := Option Char

/-- One path component (an OS string). -/
abbrev Component := List OsChar

/-- A file-system path, as its normalized list of components. -/
structure FsPath where
  components : List Component
deriving DecidableEq

/-- The component spelled by a Lean string (all units valid). -/
def compOfString (s : String) : Component := s.data.map some

/-- Decode an OS string to a character list; none when any unit is invalid
UTF-8 (this models OsStr::to_str returning None). -/
def osToStr (c : Component) : Option (List Char) :=
  c.foldr
    (fun oc acc =>
      match oc, acc with
      | some ch, some l => some (ch :: l)
      | _, _ => none)
    (some [])

/-- Path::to_str - the whole path as a string, none when some component
holds invalid UTF-8. -/
def FsPath.toStr (p : FsPath) : Option String :=
  match p.components.mapM osToStr with
  | some parts => some (String.intercalate "/" (parts.map List.asString))
  | none => none

/-- The component ".." -/
def dotdotComp : Component := [some '.', some '.']

/-- The component "." -/
def curdirComp : Component := [some '.']

/-- Path::file_name - the final component, unless the path is empty or
ends in ".." or "." (Rust returns None for those). -/
def FsPath.fileName (p : FsPath) : Option Component :=
  match p.components.getLast? with
  | some c => if c = dotdotComp ∨ c = curdirComp then none else some c
  | none => none

/-- Index of the last dot in a component, if any. -/
def lastDotIdx : Component → Option Nat
  | [] => none
  | x :: xs =>
    match lastDotIdx xs with
    | some i => some (i + 1)
    | none => if x = some '.' then some 0 else none

/-- Path::file_stem on a file-name component: everything before the final
dot, except that a leading dot with no later dot marks a hidden file
without an extension, whose stem is the whole name. -/
def stemComp (c : Component) : Component :=
  match lastDotIdx c with
  | some i => if i = 0 then c else c.take i
  | none => c

/-- PathBuf::set_extension with a non-empty extension, applied to a
file-name component: the stem followed by a dot and the new extension. -/
def setExtComp (c : Component) (ext : Component) : Component :=
  stemComp c ++ [some '.'] ++ ext

/-- The extension component "parquet". -/
def parquetComp : Component := compOfString "parquet"

/-- parse_delimiter from main.rs lines 48-69: five two-character escape
sequences, otherwise exactly one character; empty and longer strings are
rejected. -/
def parse_delimiter (s : String) : Except String Char :=
  if s = "\\t" then .ok '\t'
  else if s = "\\n" then .ok '\n'
  else if s = "\\r" then .ok '\r'
  else if s = "\\," then .ok ','
  else if s = "\\;" then .ok ';'
  else
    match s.data with
    | [] => .error "Delimiter cannot be empty"
    | [c] => .ok c
    | _ => .error ("Invalid delimiter: " ++ s)

/-- ErrorData from main.rs lines 43-46. -/
structure ErrorData where
  file_path : String
  error : String
deriving DecidableEq

/-- The cross-task shared mutable state: the Arc-Mutex error vector and
the Arc-Mutex progress bar position of main.rs lines 97-107. -/
structure SharedState where
  errors : List ErrorData
  progress : Nat
deriving DecidableEq

/-- One mutex-protected mutation of the shared state: either pushing an
ErrorData onto the error vector (main.rs line 133) or incrementing the
progress bar by one (main.rs line 138). -/
inductive Op where
  | appendErr (e : ErrorData)
  | incProgress
deriving DecidableEq

/-- Effect of one atomic operation on the shared state. -/
def applyOp (s : SharedState) : Op → SharedState
  | .appendErr e => { s with errors := s.errors ++ [e] }
  | .incProgress => { s with progress := s.progress + 1 }

/-- An invocation of convert_to_parquet (main.rs line 131): the input
file and the arguments the harness passes along with it. -/
structure ConvCall where
  file : FsPath
  delim : Char
  has_header : Bool
  sampling : Nat
  output : Option FsPath
deriving DecidableEq

/-- The resolved conversion call for one discovered file (main.rs lines
121-128): with an output directory, the output path is the directory
joined with the input file name whose extension is set to parquet; the
file_name unwrap makes this partial.  Without an output directory no
output path is resolved. -/
def mkCall (d : Char) (hh : Bool) (samp : Nat) (outDir : Option FsPath)
    (f : FsPath) : Option ConvCall :=
  match outDir with
  | some dir =>
    match f.fileName with
    | some name =>
      some ⟨f, d, hh, samp, some ⟨dir.components ++ [setExtComp name parquetComp]⟩⟩
    | none => none
  | none => some ⟨f, d, hh, samp, none⟩

/-- Resolved calls for all discovered files, in discovery order. -/
def mkCalls (d : Char) (hh : Bool) (samp : Nat) (outDir : Option FsPath) :
    List FsPath → Option (List ConvCall)
  | [] => some []
  | f :: fs =>
    match mkCall d hh samp outDir f, mkCalls d hh samp outDir fs with
    | some c, some cs => some (c :: cs)
    | _, _ => none

/-- The queue of shared-state operations performed by the task body for
one conversion call (main.rs lines 130-139): on conversion failure the
task pushes an ErrorData built from the path (whose to_str unwrap makes
this partial) and then increments the bar; on success it only increments
the bar. -/
def taskOps (outcome : ConvCall → Option String) (c : ConvCall) :
    Option (List Op) :=
  match outcome c with
  | some err =>
    match c.file.toStr with
    | some s => some [Op.appendErr ⟨s, err⟩, Op.incProgress]
    | none => none
  | none => some [Op.incProgress]

/-- Operation queues of all spawned tasks, in spawn order. -/
def tasksOf (outcome : ConvCall → Option String) :
    List ConvCall → Option (List (List Op))
  | [] => some []
  | c :: cs =>
    match taskOps outcome c, tasksOf outcome cs with
    | some q, some qs => some (q :: qs)
    | _, _ => none

/-- Run a schedule: at each step the scheduler picks a task index, the
task executes the next atomic operation of its queue.  Returns the list
of executed operations in execution order, the remaining queues and the
final shared state; none when the schedule points at an exhausted or
missing queue. -/
def runSchedT : List (List Op) → SharedState → List Nat →
    Option (List Op × List (List Op) × SharedState)
  | qs, s, [] => some ([], qs, s)
  | qs, s, i :: is =>
    match qs[i]? with
    | some (op :: rest) =>
      match runSchedT (qs.set i rest) (applyOp s op) is with
      | some (ops, qs2, s2) => some (op :: ops, qs2, s2)
      | none => none
    | some [] => none
    | none => none

/-- Number of progress increments contributed by one operation. -/
def opInc : Op → Nat
  | .appendErr _ => 0
  | .incProgress => 1

/-- Progress increments in one queue. -/
def countInc (q : List Op) : Nat := (q.map opInc).sum

/-- Progress increments across all queues. -/
def totInc (qs : List (List Op)) : Nat := (qs.map countInc).sum

/-- Error records contributed by one operation, as a multiset. -/
def opErr : Op → Multiset ErrorData
  | .appendErr e => {e}
  | .incProgress => 0

/-- Error records in one queue. -/
def errMS (q : List Op) : Multiset ErrorData := (q.map opErr).sum

/-- Error records across all queues. -/
def totErr (qs : List (List Op)) : Multiset ErrorData := (qs.map errMS).sum

/-- The error record a conversion call is expected to contribute: one
record carrying the file path and the error message when the conversion
fails, nothing when it succeeds. -/
def expectedErr (outcome : ConvCall → Option String) (c : ConvCall) :
    Multiset ErrorData :=
  match outcome c, c.file.toStr with
  | some err, some s => {ErrorData.mk s err}
  | _, _ => 0

/-- The data of a completed run of main after a successful early phase:
the conversion calls issued, the interleaved operation trace, the final
shared state, and the printed error report of main.rs lines 151-157 as
(path, message) pairs. -/
structure MainOk where
  calls : List ConvCall
  opTrace : List Op
  final : SharedState
  report : List (String × String)
deriving DecidableEq

/-- Observable events of one run of main, in order: each atomic
shared-state operation executed by a task, then the progress-bar finish
of main.rs line 149, then the read of the error vector at line 151
carrying the list it observes. -/
inductive Event where
  | taskOp (op : Op)
  | finishBar
  | readErrors (errs : List ErrorData)
deriving DecidableEq

/-- The event trace of a completed run: block_on awaits every handle
before finish is called on the bar and before the error vector is read,
so all task operations precede the two closing events. -/
def MainOk.events (r : MainOk) : List Event :=
  r.opTrace.map Event.taskOp ++ [Event.finishBar, Event.readErrors r.final.errors]

/-- main from main.rs lines 71-163, parameterized by the outcome of the
external conversion engine and by the scheduler interleaving.  Early
phases: parse_delimiter (line 79, early return on error) and find_files
(line 98, early return on error, its result a parameter).  Then one task
is spawned per file, all are awaited, the bar finishes and the error
vector is printed.  The outer Option is none only for runs the program
does not complete normally: a task aborted by an unwrap failure, or a
schedule that is not a complete interleaving. -/
def mainModel (delimiterArg : String) (hh : Bool) (samp : Nat)
    (outDir : Option FsPath) (findResult : Except String (List FsPath))
    (outcome : ConvCall → Option String) (sched : List Nat) :
    Option (Except String MainOk) :=
  match parse_delimiter delimiterArg with
  | .error e => some (.error ("Error parsing delimiter: " ++ e))
  | .ok d =>
    match findResult with
    | .error e => some (.error e)
    | .ok files =>
      match mkCalls d hh samp outDir files with
      | none => none
      | some calls =>
        match tasksOf outcome calls with
        | none => none
        | some qs =>
          match runSchedT qs ⟨[], 0⟩ sched with
          | some (ops, qs2, sf) =>
            if qs2.all List.isEmpty then
              some (.ok ⟨calls, ops, sf, sf.errors.map (fun e => (e.file_path, e.error))⟩)
            else none
          | none => none

/-- A concrete valid input path, used to instantiate theorems. -/
def wFile : FsPath := ⟨[compOfString "a.csv"]⟩

/-- A concrete path holding a non-UTF-8 component. -/
def wBad : FsPath := ⟨[[(none : OsChar)]]⟩

/-- A concrete output directory. -/
def wDir : FsPath := ⟨[compOfString "out"]⟩

/-- The conversion call the harness resolves for wFile without an output
directory. -/
def wCall : ConvCall := ⟨wFile, ',', true, 100, none⟩

/-- An engine in which every conversion succeeds. -/
def wOutcomeOk : ConvCall → Option String := fun _ => none

/-- An engine in which every conversion fails with message boom. -/
def wOutcomeFail : ConvCall → Option String := fun _ => some "boom"

/-- The error record the failing engine produces for wFile. -/
def wErr : ErrorData := ⟨"a.csv", "boom"⟩

/-- The completed run over [wFile] with the succeeding engine. -/
def wOkA : MainOk := ⟨[wCall], [Op.incProgress], ⟨[], 1⟩, []⟩

/-- The completed run over [wFile] with the failing engine. -/
def wOkB : MainOk :=
  ⟨[wCall], [Op.appendErr wErr, Op.incProgress], ⟨[wErr], 1⟩, [("a.csv", "boom")]⟩

theorem countInc_cons (op : Op) (q : List Op) :
    countInc (op :: q) = opInc op + countInc q := by
  simp [countInc]

theorem totInc_cons (q : List Op) (qs : List (List Op)) :
    totInc (q :: qs) = countInc q + totInc qs := by
  simp [totInc]

theorem errMS_cons (op : Op) (q : List Op) :
    errMS (op :: q) = opErr op + errMS q := by
  simp [errMS]

theorem totErr_cons (q : List Op) (qs : List (List Op)) :
    totErr (q :: qs) = errMS q + totErr qs := by
  simp [totErr]

theorem totInc_set (qs : List (List Op)) (i : Nat) (op : Op) (rest : List Op)
    (h : qs[i]? = some (op :: rest)) :
    totInc qs = opInc op + totInc (qs.set i rest) := by
  induction qs generalizing i with
  | nil => simp at h
  | cons q qs ih =>
    cases i with
    | zero =>
      simp at h
      subst h
      simp [totInc_cons, countInc_cons]
      omega
    | succ n =>
      simp at h
      have hr := ih n h
      simp [totInc_cons, List.set]
      omega

theorem totErr_set (qs : List (List Op)) (i : Nat) (op : Op) (rest : List Op)
    (h : qs[i]? = some (op :: rest)) :
    totErr qs = opErr op + totErr (qs.set i rest) := by
  induction qs generalizing i with
  | nil => simp at h
  | cons q qs ih =>
    cases i with
    | zero =>
      simp at h
      subst h
      simp [totErr_cons, errMS_cons, List.set]
      abel
    | succ n =>
      simp at h
      have hr := ih n h
      simp [totErr_cons, List.set, hr]
      abel

theorem applyOp_progress (s : SharedState) (op : Op) :
    (applyOp s op).progress = s.progress + opInc op := by
  cases op <;> simp [applyOp, opInc]

theorem applyOp_errors (s : SharedState) (op : Op) :
    ((applyOp s op).errors : Multiset ErrorData) = ↑s.errors + opErr op := by
  cases op with
  | appendErr e =>
    show ((s.errors ++ [e] : List ErrorData) : Multiset ErrorData) = ↑s.errors + {e}
    rw [← Multiset.coe_singleton, Multiset.coe_add]
  | incProgress => simp [applyOp, opErr]

theorem applyOp_errors_grow (s : SharedState) (op : Op) :
    s.errors <+: (applyOp s op).errors := by
  cases op <;> simp [applyOp]

theorem foldl_applyOp_progress (ops : List Op) :
    ∀ s : SharedState, (ops.foldl applyOp s).progress = s.progress + countInc ops := by
  induction ops with
  | nil => intro s; simp [countInc]
  | cons op ops ih =>
    intro s
    simp only [List.foldl_cons, ih, applyOp_progress, countInc_cons]
    omega

theorem foldl_applyOp_errors (ops : List Op) :
    ∀ s : SharedState,
      ((ops.foldl applyOp s).errors : Multiset ErrorData) = ↑s.errors + errMS ops := by
  induction ops with
  | nil => intro s; simp [errMS]
  | cons op ops ih =>
    intro s
    simp only [List.foldl_cons, ih, applyOp_errors, errMS_cons]
    abel

theorem foldl_applyOp_errors_grow (ops : List Op) :
    ∀ s : SharedState, s.errors <+: (ops.foldl applyOp s).errors := by
  induction ops with
  | nil => intro s; simp
  | cons op ops ih =>
    intro s
    exact (applyOp_errors_grow s op).trans (ih (applyOp s op))

theorem runSchedT_spec (sched : List Nat) :
    ∀ qs s ops qs2 s2, runSchedT qs s sched = some (ops, qs2, s2) →
      s2 = ops.foldl applyOp s ∧
      totInc qs = countInc ops + totInc qs2 ∧
      totErr qs = errMS ops + totErr qs2 := by
  induction sched with
  | nil =>
    intro qs s ops qs2 s2 h
    simp [runSchedT] at h
    obtain ⟨h1, h2, h3⟩ := h
    subst h1; subst h2; subst h3
    simp [countInc, errMS]
  | cons i is ih =>
    intro qs s ops qs2 s2 h
    simp only [runSchedT] at h
    split at h
    case _ op rest hg =>
      split at h
      case _ ops1 qs1 s1 hr =>
        simp only [Option.some.injEq, Prod.mk.injEq] at h
        obtain ⟨h1, h2, h3⟩ := h
        subst h1; subst h2; subst h3
        obtain ⟨e1, e2, e3⟩ := ih _ _ _ _ _ hr
        refine ⟨by simpa using e1, ?_, ?_⟩
        · rw [totInc_set qs i op rest hg, countInc_cons, e2]
          omega
        · rw [totErr_set qs i op rest hg, errMS_cons, e3]
          abel
      case _ => exact absurd h (by simp)
    case _ => exact absurd h (by simp)
    case _ => exact absurd h (by simp)

theorem taskOps_countInc (outcome : ConvCall → Option String) (c : ConvCall)
    (q : List Op) (h : taskOps outcome c = some q) : countInc q = 1 := by
  unfold taskOps at h
  split at h
  · split at h
    · obtain rfl := Option.some.inj h
      simp [countInc, opInc]
    · exact absurd h (by simp)
  · obtain rfl := Option.some.inj h
    simp [countInc, opInc]

theorem taskOps_errMS (outcome : ConvCall → Option String) (c : ConvCall)
    (q : List Op) (h : taskOps outcome c = some q) :
    errMS q = expectedErr outcome c := by
  unfold taskOps at h
  unfold expectedErr
  split at h
  case _ err ho =>
    split at h
    case _ s hs =>
      obtain rfl := Option.some.inj h
      rw [ho, hs]
      simp [errMS, opErr]
    case _ => exact absurd h (by simp)
  case _ ho =>
    obtain rfl := Option.some.inj h
    rw [ho]
    simp [errMS, opErr]

theorem tasksOf_forall2 (outcome : ConvCall → Option String) :
    ∀ cs qs, tasksOf outcome cs = some qs →
      List.Forall₂ (fun c q => taskOps outcome c = some q) cs qs := by
  intro cs
  induction cs with
  | nil =>
    intro qs h
    obtain rfl := Option.some.inj h
    exact List.Forall₂.nil
  | cons c cs ih =>
    intro qs h
    unfold tasksOf at h
    split at h
    case _ q qs1 hq hqs =>
      obtain rfl := Option.some.inj h
      exact List.Forall₂.cons hq (ih qs1 hqs)
    case _ => exact absurd h (by simp)

theorem forall2_length {α β : Type} {R : α → β → Prop} :
    ∀ {as : List α} {bs : List β}, List.Forall₂ R as bs → as.length = bs.length := by
  intro as bs h
  induction h with
  | nil => rfl
  | cons _ _ ih => simpa using ih

theorem forall2_mem_left {α β : Type} {R : α → β → Prop} :
    ∀ {as : List α} {bs : List β}, List.Forall₂ R as bs →
      ∀ a, a ∈ as → ∃ b, b ∈ bs ∧ R a b := by
  intro as bs h
  induction h with
  | nil => intro a ha; exact absurd ha (by simp)
  | cons hr _ ih =>
    intro a ha
    rcases List.mem_cons.mp ha with rfl | hmem
    · exact ⟨_, List.mem_cons_self _ _, hr⟩
    · obtain ⟨b, hb, hab⟩ := ih a hmem
      exact ⟨b, List.mem_cons_of_mem _ hb, hab⟩

theorem tasksOf_totInc (outcome : ConvCall → Option String)
    (cs : List ConvCall) (qs : List (List Op))
    (h : tasksOf outcome cs = some qs) : totInc qs = cs.length := by
  have hf := tasksOf_forall2 outcome cs qs h
  clear h
  induction hf with
  | nil => simp [totInc]
  | cons hq _ ih =>
    rw [totInc_cons, taskOps_countInc _ _ _ hq, ih]
    simp [Nat.add_comm]

theorem tasksOf_totErr (outcome : ConvCall → Option String)
    (cs : List ConvCall) (qs : List (List Op))
    (h : tasksOf outcome cs = some qs) :
    totErr qs = (cs.map (expectedErr outcome)).sum := by
  have hf := tasksOf_forall2 outcome cs qs h
  clear h
  induction hf with
  | nil => simp [totErr]
  | cons hq _ ih =>
    rw [totErr_cons, taskOps_errMS _ _ _ hq, ih]
    simp

theorem allEmpty_totInc (qs : List (List Op)) (h : qs.all List.isEmpty = true) :
    totInc qs = 0 ∧ totErr qs = 0 := by
  induction qs with
  | nil => simp [totInc, totErr]
  | cons q qs ih =>
    simp only [List.all_cons, Bool.and_eq_true] at h
    obtain ⟨hq, hqs⟩ := h
    obtain rfl := List.isEmpty_iff.mp hq
    obtain ⟨h1, h2⟩ := ih hqs
    constructor
    · rw [totInc_cons, h1]; simp [countInc]
    · rw [totErr_cons, h2]; simp [errMS]

theorem mkCall_fields (d : Char) (hh : Bool) (samp : Nat)
    (outDir : Option FsPath) (f : FsPath) (c : ConvCall)
    (h : mkCall d hh samp outDir f = some c) :
    c.file = f ∧ c.delim = d ∧ c.has_header = hh ∧ c.sampling = samp := by
  unfold mkCall at h
  split at h
  · split at h
    · obtain rfl := Option.some.inj h
      exact ⟨rfl, rfl, rfl, rfl⟩
    · exact absurd h (by simp)
  · obtain rfl := Option.some.inj h
    exact ⟨rfl, rfl, rfl, rfl⟩

theorem mkCalls_forall2 (d : Char) (hh : Bool) (samp : Nat)
    (outDir : Option FsPath) :
    ∀ files calls, mkCalls d hh samp outDir files = some calls →
      List.Forall₂ (fun f c => mkCall d hh samp outDir f = some c) files calls := by
  intro files
  induction files with
  | nil =>
    intro calls h
    obtain rfl := Option.some.inj h
    exact List.Forall₂.nil
  | cons f fs ih =>
    intro calls h
    unfold mkCalls at h
    split at h
    case _ c cs hc hcs =>
      obtain rfl := Option.some.inj h
      exact List.Forall₂.cons hc (ih cs hcs)
    case _ => exact absurd h (by simp)

theorem mkCalls_length (d : Char) (hh : Bool) (samp : Nat)
    (outDir : Option FsPath) (files : List FsPath) (calls : List ConvCall)
    (h : mkCalls d hh samp outDir files = some calls) :
    calls.length = files.length :=
  (forall2_length (mkCalls_forall2 d hh samp outDir files calls h)).symm

theorem expectedErr_mem_sum (outcome : ConvCall → Option String)
    (cs : List ConvCall) (c : ConvCall) (hc : c ∈ cs) (ed : ErrorData)
    (he : expectedErr outcome c = {ed}) :
    ed ∈ (cs.map (expectedErr outcome)).sum := by
  induction cs with
  | nil => exact absurd hc (by simp)
  | cons c0 cs ih =>
    simp only [List.map_cons, List.sum_cons, Multiset.mem_add]
    rcases List.mem_cons.mp hc with rfl | hmem
    · left; rw [he]; simp
    · right; exact ih hmem

/-- Inversion of a completed successful run of the model of main:
recovers the parsed delimiter, the resolved calls, the task queues, the
schedule run and the closing bookkeeping. -/
theorem mainModel_ok_inv (dArg : String) (hh : Bool) (samp : Nat)
    (outDir : Option FsPath) (files : List FsPath)
    (outcome : ConvCall → Option String) (sched : List Nat) (r : MainOk)
    (h : mainModel dArg hh samp outDir (.ok files) outcome sched = some (.ok r)) :
    ∃ d calls qs qs2,
      parse_delimiter dArg = .ok d ∧
      mkCalls d hh samp outDir files = some calls ∧
      tasksOf outcome calls = some qs ∧
      runSchedT qs ⟨[], 0⟩ sched = some (r.opTrace, qs2, r.final) ∧
      qs2.all List.isEmpty = true ∧
      r.calls = calls ∧
      r.report = r.final.errors.map (fun e => (e.file_path, e.error)) := by
  unfold mainModel at h
  split at h
  · exact absurd h (by simp)
  next d hd =>
    split at h
    · exact absurd h (by simp)
    next files2 hfiles2 =>
      obtain rfl := Except.ok.inj hfiles2
      split at h
      · exact absurd h (by simp)
      next calls hcalls =>
        split at h
        · exact absurd h (by simp)
        next qs hqs =>
          split at h
          next ops qs2 sf hrun =>
            split at h
            next hall =>
              obtain rfl := (Except.ok.inj (Option.some.inj h)).symm
              exact ⟨d, calls, qs, qs2, hd, hcalls, hqs, hrun, hall, rfl, rfl⟩
            next => exact absurd h (by simp)
          next => exact absurd h (by simp)

theorem forall2_mem_right {α β : Type} {R : α → β → Prop} :
    ∀ {as : List α} {bs : List β}, List.Forall₂ R as bs →
      ∀ b, b ∈ bs → ∃ a, a ∈ as ∧ R a b := by
  intro as bs h
  induction h with
  | nil => intro b hb; exact absurd hb (by simp)
  | cons hr _ ih =>
    intro b hb
    rcases List.mem_cons.mp hb with rfl | hmem
    · exact ⟨_, List.mem_cons_self _ _, hr⟩
    · obtain ⟨a, ha, hab⟩ := ih b hmem
      exact ⟨a, List.mem_cons_of_mem _ ha, hab⟩

theorem map_expectedErr_zero (outcome : ConvCall → Option String) :
    ∀ cs : List ConvCall, (∀ c ∈ cs, outcome c = none) →
      (cs.map (expectedErr outcome)).sum = 0 := by
  intro cs
  induction cs with
  | nil => intro _; simp
  | cons c cs ih =>
    intro hall
    have hc : outcome c = none := hall c (List.mem_cons_self _ _)
    have hz : expectedErr outcome c = 0 := by unfold expectedErr; rw [hc]
    simp only [List.map_cons, List.sum_cons, hz, zero_add]
    exact ih (fun x hx => hall x (List.mem_cons_of_mem _ hx))

/-- Aggregated facts about any completed successful run of main: lengths,
final progress, the multiset of recorded errors, and the report shape. -/
theorem mainModel_run_facts (dArg : String) (hh : Bool) (samp : Nat)
    (outDir : Option FsPath) (files : List FsPath)
    (outcome : ConvCall → Option String) (sched : List Nat) (r : MainOk)
    (h : mainModel dArg hh samp outDir (.ok files) outcome sched = some (.ok r)) :
    (∃ d, parse_delimiter dArg = .ok d ∧ mkCalls d hh samp outDir files = some r.calls) ∧
    (∃ qs, tasksOf outcome r.calls = some qs) ∧
    r.calls.length = files.length ∧
    r.final = r.opTrace.foldl applyOp ⟨[], 0⟩ ∧
    countInc r.opTrace = files.length ∧
    r.final.progress = files.length ∧
    ((r.final.errors : Multiset ErrorData) = (r.calls.map (expectedErr outcome)).sum) ∧
    r.report = r.final.errors.map (fun e => (e.file_path, e.error)) := by
  obtain ⟨d, calls, qs, qs2, hd, hcalls, hqs, hrun, hall, hrc, hrep⟩ :=
    mainModel_ok_inv dArg hh samp outDir files outcome sched r h
  subst hrc
  obtain ⟨e1, e2, e3⟩ := runSchedT_spec sched qs ⟨[], 0⟩ r.opTrace qs2 r.final hrun
  obtain ⟨hz1, hz2⟩ := allEmpty_totInc qs2 hall
  have hlen : r.calls.length = files.length :=
    mkCalls_length d hh samp outDir files r.calls hcalls
  have hti : totInc qs = r.calls.length := tasksOf_totInc outcome r.calls qs hqs
  have hte : totErr qs = (r.calls.map (expectedErr outcome)).sum :=
    tasksOf_totErr outcome r.calls qs hqs
  have hci : countInc r.opTrace = files.length := by omega
  have hprog : r.final.progress = files.length := by
    rw [e1, foldl_applyOp_progress]
    simpa using hci
  have herr : (r.final.errors : Multiset ErrorData) = (r.calls.map (expectedErr outcome)).sum := by
    have hms : errMS r.opTrace = (r.calls.map (expectedErr outcome)).sum := by
      rw [← hte, e3, hz2, add_zero]
    rw [e1, foldl_applyOp_errors, hms]
    simp
  exact ⟨⟨d, hd, hcalls⟩, ⟨qs, hqs⟩, hlen, e1, hci, hprog, herr, hrep⟩

/-- C1: in every completed run of the harness over a list of discovered
files, each spawned task increments the shared progress counter exactly
once - its operation queue contains exactly one increment whether the
conversion succeeds or fails - and the final counter value equals the
number of discovered files. -/
theorem claim_C1_progress_once_per_task (dArg : String) (hh : Bool)
    (samp : Nat) (outDir : Option FsPath) (files : List FsPath)
    (outcome : ConvCall → Option String) (sched : List Nat) (r : MainOk)
    (h : mainModel dArg hh samp outDir (.ok files) outcome sched = some (.ok r)) :
    (∃ qs, tasksOf outcome r.calls = some qs ∧ ∀ q ∈ qs, countInc q = 1) ∧
    r.final.progress = files.length := by
  obtain ⟨_, ⟨qs, hqs⟩, _, _, _, hprog, _, _⟩ :=
    mainModel_run_facts dArg hh samp outDir files outcome sched r h
  refine ⟨⟨qs, hqs, ?_⟩, hprog⟩
  intro q hq
  obtain ⟨c, _, hcq⟩ :=
    forall2_mem_right (tasksOf_forall2 outcome r.calls qs hqs) q hq
  exact taskOps_countInc outcome c q hcq

/-- Witness for C1: a concrete completed run over one file whose
conversion fails still drives the counter to the file count. -/
theorem claim_C1_witness : wOkB.final.progress = [wFile].length :=
  (claim_C1_progress_once_per_task "," true 100 none [wFile] wOutcomeFail
    [0, 0] wOkB (by rfl)).2

/-- C2: in every completed run, each task whose conversion fails has its
failure appended to the shared error collection, and every sibling task
still runs to completion - one task per discovered file executes and the
progress counter reaches the full file count no matter how many
conversions fail. -/
theorem claim_C2_failure_isolation (dArg : String) (hh : Bool)
    (samp : Nat) (outDir : Option FsPath) (files : List FsPath)
    (outcome : ConvCall → Option String) (sched : List Nat) (r : MainOk)
    (h : mainModel dArg hh samp outDir (.ok files) outcome sched = some (.ok r)) :
    (∀ c ∈ r.calls, ∀ err, outcome c = some err →
      ∃ s, c.file.toStr = some s ∧ ErrorData.mk s err ∈ r.final.errors) ∧
    r.calls.length = files.length ∧
    r.final.progress = files.length := by
  obtain ⟨_, ⟨qs, hqs⟩, hlen, _, _, hprog, herr, _⟩ :=
    mainModel_run_facts dArg hh samp outDir files outcome sched r h
  refine ⟨?_, hlen, hprog⟩
  intro c hc err hout
  obtain ⟨q, _, hcq⟩ :=
    forall2_mem_left (tasksOf_forall2 outcome r.calls qs hqs) c hc
  unfold taskOps at hcq
  rw [hout] at hcq
  cases hs : c.file.toStr with
  | none => rw [hs] at hcq; exact absurd hcq (by simp)
  | some s =>
    refine ⟨s, rfl, ?_⟩
    have hexp : expectedErr outcome c = {ErrorData.mk s err} := by
      unfold expectedErr; rw [hout, hs]
    have hmem : ErrorData.mk s err ∈ (r.calls.map (expectedErr outcome)).sum :=
      expectedErr_mem_sum outcome r.calls c hc _ hexp
    rw [← herr] at hmem
    exact Multiset.mem_coe.mp hmem

/-- Witness for C2: in the concrete failing run one task ran per file
and the bookkeeping completed despite the failure. -/
theorem claim_C2_witness :
    wOkB.calls.length = [wFile].length ∧
    wOkB.final.progress = [wFile].length :=
  (claim_C2_failure_isolation "," true 100 none [wFile] wOutcomeFail
    [0, 0] wOkB (by rfl)).2

/-- C3: in every completed run the recorded errors are, as a multiset,
exactly one record per failed task carrying that task path and error
message and none for successful tasks; along the run the error list only
grows by appends; after all tasks finish every record is reported with
its path and message, and a run with zero failures reports nothing. -/
theorem claim_C3_error_report (dArg : String) (hh : Bool)
    (samp : Nat) (outDir : Option FsPath) (files : List FsPath)
    (outcome : ConvCall → Option String) (sched : List Nat) (r : MainOk)
    (h : mainModel dArg hh samp outDir (.ok files) outcome sched = some (.ok r)) :
    ((r.final.errors : Multiset ErrorData) = (r.calls.map (expectedErr outcome)).sum) ∧
    (∀ t, t <+: r.opTrace → (t.foldl applyOp ⟨[], 0⟩).errors <+: r.final.errors) ∧
    r.report = r.final.errors.map (fun e => (e.file_path, e.error)) ∧
    ((∀ c ∈ r.calls, outcome c = none) → r.report = []) := by
  obtain ⟨_, _, _, hfin, _, _, herr, hrep⟩ :=
    mainModel_run_facts dArg hh samp outDir files outcome sched r h
  refine ⟨herr, ?_, hrep, ?_⟩
  · intro t ht
    obtain ⟨u, hu⟩ := ht
    rw [hfin, ← hu, List.foldl_append]
    exact foldl_applyOp_errors_grow u _
  · intro hall
    have hz : (r.calls.map (expectedErr outcome)).sum = 0 :=
      map_expectedErr_zero outcome r.calls hall
    rw [hz] at herr
    have : r.final.errors = [] := by
      simpa using herr
    rw [hrep, this]
    simp

/-- Witness for C3: in the concrete failing run the recorded errors are
exactly the one expected record and the report prints its path and
message. -/
theorem claim_C3_witness :
    ((wOkB.final.errors : Multiset ErrorData) =
      (wOkB.calls.map (expectedErr wOutcomeFail)).sum) ∧
    wOkB.report = wOkB.final.errors.map (fun e => (e.file_path, e.error)) :=
  ⟨(claim_C3_error_report "," true 100 none [wFile] wOutcomeFail
      [0, 0] wOkB (by rfl)).1,
   (claim_C3_error_report "," true 100 none [wFile] wOutcomeFail
      [0, 0] wOkB (by rfl)).2.2.1⟩

/-- C4: in every completed run the progress-bar finish and the read of
the error collection come after every task operation in the event trace,
every spawned task has completed before them - the trace holds one
increment per discovered file - and the error read observes exactly the
final error collection. -/
theorem claim_C4_report_after_completion (dArg : String) (hh : Bool)
    (samp : Nat) (outDir : Option FsPath) (files : List FsPath)
    (outcome : ConvCall → Option String) (sched : List Nat) (r : MainOk)
    (h : mainModel dArg hh samp outDir (.ok files) outcome sched = some (.ok r)) :
    (∀ (k : Nat) (ev : Event), r.events[k]? = some ev →
      (ev = Event.finishBar ∨ ∃ es, ev = Event.readErrors es) →
      ∀ (m : Nat) (op : Op), r.events[m]? = some (Event.taskOp op) → m < k) ∧
    countInc r.opTrace = files.length ∧
    (∀ es, Event.readErrors es ∈ r.events → es = r.final.errors) := by
  obtain ⟨_, _, _, _, hci, _, _, _⟩ :=
    mainModel_run_facts dArg hh samp outDir files outcome sched r h
  have hlen : (r.opTrace.map Event.taskOp).length = r.opTrace.length := by simp
  refine ⟨?_, hci, ?_⟩
  · intro k ev hk hshape m op hm
    have hmlt : m < r.opTrace.length := by
      by_contra hge
      push_neg at hge
      have hge2 : (r.opTrace.map Event.taskOp).length ≤ m := by
        rw [hlen]; exact hge
      rw [MainOk.events, List.getElem?_append_right hge2, hlen] at hm
      rcases hdm : m - r.opTrace.length with _ | k
      · rw [hdm] at hm; exact absurd hm (by simp)
      · rcases k with _ | k2
        · rw [hdm] at hm; exact absurd hm (by simp)
        · rw [hdm] at hm; exact absurd hm (by simp)
    have hklt : r.opTrace.length ≤ k := by
      by_contra hgt
      push_neg at hgt
      have hk2 : k < (r.opTrace.map Event.taskOp).length := by rw [hlen]; exact hgt
      rw [MainOk.events, List.getElem?_append, if_pos hk2, List.getElem?_map] at hk
      have hk3 : k < r.opTrace.length := hgt
      rw [List.getElem?_eq_getElem hk3] at hk
      simp at hk
      rcases hshape with rfl | ⟨es, rfl⟩ <;> simp_all
    omega
  · intro es hmem
    rw [MainOk.events] at hmem
    rcases List.mem_append.mp hmem with hmem1 | hmem2
    · obtain ⟨op, _, hop⟩ := List.mem_map.mp hmem1
      exact absurd hop (by simp)
    · rcases List.mem_cons.mp hmem2 with h1 | h2
      · exact absurd h1 (by simp)
      · rcases List.mem_cons.mp h2 with h3 | h4
        · exact (Event.readErrors.inj h3.symm).symm
        · exact absurd h4 (by simp)

/-- Witness for C4: in the concrete failing run the trace holds one
increment and the error read observes the final list. -/
theorem claim_C4_witness : countInc wOkB.opTrace = [wFile].length :=
  (claim_C4_report_after_completion "," true 100 none [wFile] wOutcomeFail
    [0, 0] wOkB (by rfl)).2.1

/-- C5: for every input path with a final file-name component, the
output path resolved when an output directory is given is that directory
joined with the input base name (its stem) carrying a parquet extension,
and without an output directory no output path is resolved. -/
theorem claim_C5_output_path (d : Char) (hh : Bool) (samp : Nat)
    (f : FsPath) (name : Component) (hname : f.fileName = some name) :
    (∀ dir : FsPath, mkCall d hh samp (some dir) f =
      some ⟨f, d, hh, samp,
        some ⟨dir.components ++ [stemComp name ++ [some '.'] ++ parquetComp]⟩⟩) ∧
    mkCall d hh samp none f = some ⟨f, d, hh, samp, none⟩ := by
  constructor
  · intro dir
    simp [mkCall, hname, setExtComp]
  · rfl

/-- Witness for C5: the file a.csv sent to output directory out resolves
to out/a.parquet, spelled as stem plus parquet extension. -/
theorem claim_C5_witness :
    mkCall ',' true 100 (some wDir) wFile =
      some ⟨wFile, ',', true, 100,
        some ⟨wDir.components ++
          [stemComp (compOfString "a.csv") ++ [some '.'] ++ parquetComp]⟩⟩ :=
  (claim_C5_output_path ',' true 100 wFile (compOfString "a.csv")
    (by decide)).1 wDir

/-- C6: the delimiter argument is accepted, and its parsed character
handed to every conversion, exactly when it is one of the five escape
sequences (mapped to tab, newline, carriage return, comma, semicolon) or
a single character; the empty string and any other multi-character
string make parsing fail and main return the delimiter error before any
conversion exists. -/
theorem claim_C6_delimiter_parsing :
    (parse_delimiter "\\t" = .ok '\t' ∧ parse_delimiter "\\n" = .ok '\n' ∧
     parse_delimiter "\\r" = .ok '\r' ∧ parse_delimiter "\\," = .ok ',' ∧
     parse_delimiter "\\;" = .ok ';') ∧
    (∀ (s : String) (c : Char), s.data = [c] → parse_delimiter s = .ok c) ∧
    parse_delimiter "" = .error "Delimiter cannot be empty" ∧
    (∀ (s : String) (c1 c2 : Char) (rest : List Char),
      s.data = c1 :: c2 :: rest →
      s ≠ "\\t" → s ≠ "\\n" → s ≠ "\\r" → s ≠ "\\," → s ≠ "\\;" →
      parse_delimiter s = .error ("Invalid delimiter: " ++ s)) ∧
    (∀ (e dArg : String) (hh : Bool) (samp : Nat) (outDir : Option FsPath)
      (findResult : Except String (List FsPath))
      (outcome : ConvCall → Option String) (sched : List Nat),
      parse_delimiter dArg = .error e →
      mainModel dArg hh samp outDir findResult outcome sched =
        some (.error ("Error parsing delimiter: " ++ e))) ∧
    (∀ (dArg : String) (d : Char) (hh : Bool) (samp : Nat)
      (outDir : Option FsPath) (files : List FsPath)
      (outcome : ConvCall → Option String) (sched : List Nat) (r : MainOk),
      parse_delimiter dArg = .ok d →
      mainModel dArg hh samp outDir (.ok files) outcome sched = some (.ok r) →
      ∀ c ∈ r.calls, c.delim = d) := by
  refine ⟨⟨rfl, rfl, rfl, rfl, rfl⟩, ?_, rfl, ?_, ?_, ?_⟩
  · intro s c hc
    have hlen : s.data.length = 1 := by rw [hc]; rfl
    have h1 : s ≠ "\\t" := by
      intro h; rw [h] at hlen; exact absurd hlen (by decide)
    have h2 : s ≠ "\\n" := by
      intro h; rw [h] at hlen; exact absurd hlen (by decide)
    have h3 : s ≠ "\\r" := by
      intro h; rw [h] at hlen; exact absurd hlen (by decide)
    have h4 : s ≠ "\\," := by
      intro h; rw [h] at hlen; exact absurd hlen (by decide)
    have h5 : s ≠ "\\;" := by
      intro h; rw [h] at hlen; exact absurd hlen (by decide)
    unfold parse_delimiter
    rw [if_neg h1, if_neg h2, if_neg h3, if_neg h4, if_neg h5, hc]
  · intro s c1 c2 rest hc h1 h2 h3 h4 h5
    unfold parse_delimiter
    rw [if_neg h1, if_neg h2, if_neg h3, if_neg h4, if_neg h5, hc]
  · intro e dArg hh samp outDir findResult outcome sched hd
    unfold mainModel
    rw [hd]
  · intro dArg d hh samp outDir files outcome sched r hd h c hc
    obtain ⟨⟨d2, hd2, hcalls⟩, _, _, _, _, _, _, _⟩ :=
      mainModel_run_facts dArg hh samp outDir files outcome sched r h
    rw [hd] at hd2
    obtain rfl := Except.ok.inj hd2
    obtain ⟨f, _, hfc⟩ :=
      forall2_mem_right (mkCalls_forall2 d hh samp outDir files r.calls hcalls)
        c hc
    exact (mkCall_fields d hh samp outDir f c hfc).2.1

/-- Witness for C6: the one-character delimiter x parses to x and the
empty delimiter is rejected. -/
theorem claim_C6_witness :
    parse_delimiter "x" = .ok 'x' ∧
    parse_delimiter "" = .error "Delimiter cannot be empty" :=
  ⟨claim_C6_delimiter_parsing.2.1 "x" 'x' rfl,
   claim_C6_delimiter_parsing.2.2.1⟩

/-- C7: when file discovery returns the empty collection, the run
completes successfully with no tasks, an empty error collection, zero
progress, and an ok result - an empty conversion run is not an error. -/
theorem claim_C7_empty_run (dArg : String) (d : Char) (hh : Bool)
    (samp : Nat) (outDir : Option FsPath)
    (outcome : ConvCall → Option String)
    (hd : parse_delimiter dArg = .ok d) :
    mainModel dArg hh samp outDir (.ok []) outcome [] =
      some (.ok ⟨[], [], ⟨[], 0⟩, []⟩) ∧
    (∀ (sched : List Nat) (r : MainOk),
      mainModel dArg hh samp outDir (.ok []) outcome sched = some (.ok r) →
      r.calls = [] ∧ r.opTrace = [] ∧ r.final.errors = [] ∧
      r.final.progress = 0 ∧ r.report = []) := by
  constructor
  · unfold mainModel
    rw [hd]
    rfl
  · intro sched r h
    cases sched with
    | nil =>
      unfold mainModel at h
      rw [hd] at h
      have h2 : some (Except.ok (⟨[], [], ⟨[], 0⟩, []⟩ : MainOk)) =
          some (Except.ok r) := h
      obtain rfl := (Except.ok.inj (Option.some.inj h2)).symm
      exact ⟨rfl, rfl, rfl, rfl, rfl⟩
    | cons i is =>
      unfold mainModel at h
      rw [hd] at h
      have h2 : (none : Option (Except String MainOk)) = some (.ok r) := h
      exact absurd h2 (by simp)

/-- Witness for C7: a concrete empty run returns ok with empty
bookkeeping. -/
theorem claim_C7_witness :
    mainModel "," true 100 none (.ok []) wOutcomeOk [] =
      some (.ok ⟨[], [], ⟨[], 0⟩, []⟩) :=
  (claim_C7_empty_run "," ',' true 100 none wOutcomeOk rfl).1

/-- C8: the shared state consists of exactly the error collection and
the progress counter; each atomic, mutex-protected operation either
appends one record leaving the counter untouched or increments the
counter leaving the records untouched, so every mutation touches exactly
one of the two cells and no partial update of either is observable; task
bodies perform no operations besides these two. -/
theorem claim_C8_shared_state_mutual_exclusion :
    (∀ (s : SharedState) (e : ErrorData),
      applyOp s (Op.appendErr e) = ⟨s.errors ++ [e], s.progress⟩) ∧
    (∀ s : SharedState, applyOp s Op.incProgress = ⟨s.errors, s.progress + 1⟩) ∧
    (∀ (s : SharedState) (op : Op),
      (applyOp s op).errors = s.errors ∨ (applyOp s op).progress = s.progress) ∧
    (∀ s1 s2 : SharedState,
      s1.errors = s2.errors → s1.progress = s2.progress → s1 = s2) ∧
    (∀ (outcome : ConvCall → Option String) (c : ConvCall) (q : List Op),
      taskOps outcome c = some q →
      ∀ op ∈ q, (∃ e, op = Op.appendErr e) ∨ op = Op.incProgress) := by
  refine ⟨fun s e => rfl, fun s => rfl, ?_, ?_, ?_⟩
  · intro s op
    cases op
    · right; rfl
    · left; rfl
  · intro s1 s2 h1 h2
    cases s1; cases s2
    simp_all
  · intro outcome c q _ op _
    cases op
    · exact Or.inl ⟨_, rfl⟩
    · exact Or.inr rfl

/-- C9: whenever delimiter parsing succeeds and file discovery succeeds,
every completed run of main returns ok regardless of how many individual
conversions fail - per-file failures never reach the exit status. -/
theorem claim_C9_exit_ok (dArg : String) (d : Char) (hh : Bool)
    (samp : Nat) (outDir : Option FsPath) (files : List FsPath)
    (outcome : ConvCall → Option String) (sched : List Nat)
    (res : Except String MainOk)
    (hd : parse_delimiter dArg = .ok d)
    (h : mainModel dArg hh samp outDir (.ok files) outcome sched = some res) :
    res.isOk = true := by
  unfold mainModel at h
  split at h
  next e he => rw [hd] at he; exact absurd he (by simp)
  next d2 hd2 =>
    split at h
    next e he => exact absurd he (by simp)
    next files2 hf2 =>
      split at h
      · exact absurd h (by simp)
      next calls hcalls =>
        split at h
        · exact absurd h (by simp)
        next qs hqs =>
          split at h
          next ops qs2 sf hrun =>
            split at h
            next hall =>
              obtain rfl := (Option.some.inj h).symm
              rfl
            next => exact absurd h (by simp)
          next => exact absurd h (by simp)

/-- Witness for C9: the concrete run in which the only conversion fails
still returns an ok result. -/
theorem claim_C9_witness : (Except.ok wOkB : Except String MainOk).isOk = true :=
  claim_C9_exit_ok "," ',' true 100 none [wFile] wOutcomeFail [0, 0]
    (.ok wOkB) rfl (by rfl)

/-- C10: for every discovered path that is valid UTF-8 and has a final
file-name component, the output-path computation and the error recording
of the harness are total - the file_name and to_str unwraps succeed for
every output directory and every conversion outcome; the precondition is
required: for a non-UTF-8 path whose conversion fails, recording the
error aborts. -/
theorem claim_C10_unwrap_safety (f : FsPath) (str : String)
    (name : Component) (hs : f.toStr = some str) (hn : f.fileName = some name) :
    (∀ (d : Char) (hh : Bool) (samp : Nat) (outDir : Option FsPath),
      (mkCall d hh samp outDir f).isSome = true) ∧
    (∀ (outcome : ConvCall → Option String) (c : ConvCall), c.file = f →
      (taskOps outcome c).isSome = true) ∧
    wBad.toStr = none ∧
    taskOps (fun _ => some "boom") ⟨wBad, ',', true, 100, none⟩ = none := by
  refine ⟨?_, ?_, rfl, rfl⟩
  · intro d hh samp outDir
    cases outDir with
    | none => rfl
    | some dir => simp [mkCall, hn]
  · intro outcome c hc
    rcases ho : outcome c with _ | err <;> simp [taskOps, ho, hc, hs]

/-- Witness for C10: for the valid path a.csv both the output-path
computation and the failing-task bookkeeping are defined. -/
theorem claim_C10_witness :
    (mkCall ',' true 100 (some wDir) wFile).isSome = true ∧
    (taskOps wOutcomeFail wCall).isSome = true :=
  ⟨(claim_C10_unwrap_safety wFile "a.csv" (compOfString "a.csv")
      (by decide) (by decide)).1 ',' true 100 (some wDir),
   (claim_C10_unwrap_safety wFile "a.csv" (compOfString "a.csv")
      (by decide) (by decide)).2.1 wOutcomeFail wCall rfl⟩
